import Mathlib


namespace PLAMS

/-!
Formal model of the PLAMS core job-management subsystem: the job manager
(`jobmanager.py`: name registration, the hash dedup cache, folder-collision
policies, job registration), the runners (`jobrunner.py`: the local `call`,
the grid `call` and its queue-polling loop) and the retrying process wrapper
(`private.py`: `saferun`).  Python strings are modelled by `String`, Python
dicts by association lists, the filesystem by a finite map from paths to
directory contents.
-/
/-! ### Decimal rendering: a model of Python `str(n)` and `str.zfill` -/
/-- Character for a single decimal digit, as Python renders it. -/
def digitChar (n : Nat) : Char := Char.ofNat (48 + n)

/-- Fuel-driven digit expansion of a natural number, most significant first.
The fuel only serves structural recursion; `n + 1` units always suffice. -/
def decDigitsAux : Nat → Nat → List Char
  | 0, _ => []
  | f + 1, n =>
    if n < 10 then [digitChar n]
    else decDigitsAux f (n / 10) ++ [digitChar (n % 10)]

/-- Decimal digit list of `n`, the model of Python `str(n)` at character level. -/
def decDigits (n : Nat) : List Char := decDigitsAux (n + 1) n

/-- Left zero padding at character level, the model of Python `str.zfill`. -/
def zfillChars (w : Nat) (l : List Char) : List Char :=
  List.replicate (w - l.length) '0' ++ l

/-- Model of Python `str(n)` for a natural number `n`. -/
def pyStr (n : Nat) : String := ⟨decDigits n⟩

/-- Model of Python `s.zfill(w)`. -/
def zfill (w : Nat) (s : String) : String := ⟨zfillChars w s.data⟩

/-- Recovery of the digit list of `n` from any zero padding of it. -/
def unzfill (l : List Char) : List Char :=
  match List.dropWhile (· == '0') l with
  | [] => ['0']
  | r => r

/-! ### Association lists: the model of Python dicts -/
/-- Lookup of a key, the model of `d[k]` and `k in d`. -/
def lookupA {κ ν : Type} [DecidableEq κ] : List (κ × ν) → κ → Option ν
  | [], _ => none
  | (k, v) :: rest, key => if k = key then some v else lookupA rest key

/-- Update of a key (overwriting when present, appending when absent), the
model of `d[k] = v`. -/
def updateA {κ ν : Type} [DecidableEq κ] : List (κ × ν) → κ → ν → List (κ × ν)
  | [], key, v => [(key, v)]
  | (k, w) :: rest, key, v =>
    if k = key then (key, v) :: rest else (k, w) :: updateA rest key v

/-- Removal of a key, the model of `del d[k]`. -/
def eraseA {κ ν : Type} [DecidableEq κ] : List (κ × ν) → κ → List (κ × ν)
  | [], _ => []
  | (k, w) :: rest, key => if k = key then rest else (k, w) :: eraseA rest key

/-! ### Name registration (jobmanager.py, JobManager._register_name)

Model of the source:  if the base name is a key of `names`, its counter is
incremented first and the job is renamed to `base + "." + str(counter).zfill(counter_len)`;
otherwise `names[base] = 1` and the name is kept. -/
/-- Model of one run of `JobManager._register_name`, returning the final job
name and the updated `names` dict. -/
def registerName (clen : Nat) (names : List (String × Nat)) (base : String) :
    String × List (String × Nat) :=
  match lookupA names base with
  | some n => (base ++ "." ++ zfill clen (pyStr (n + 1)), updateA names base (n + 1))
  | none => (base, updateA names base 1)

/-- Trace of a sequence of registrations: the list of (base name, final name)
pairs, in registration order, starting from the given `names` dict. -/
def regTrace (clen : Nat) (names : List (String × Nat)) : List String → List (String × String)
  | [] => []
  | b :: bs =>
    (b, (registerName clen names b).1) :: regTrace clen (registerName clen names b).2 bs

/-- Counter currently stored for a base name (0 when the name is unregistered). -/
def cnt (names : List (String × Nat)) (s : String) : Nat := (lookupA names s).getD 0

/-- Final name produced for a job with base name `base` registered while the
stored counter is `c`. -/
def finalOf (clen : Nat) (base : String) (c : Nat) : String :=
  if c = 0 then base else base ++ "." ++ zfill clen (pyStr (c + 1))

/-- Invariant of the `names` dict: every stored counter is at least 1. -/
def NamesInv (names : List (String × Nat)) : Prop := ∀ e ∈ names, 1 ≤ e.2

/-! ### Hash cache (jobmanager.py: _check_hash, load_job, remove_job)

Jobs are identified by numeric ids (Python object identity) and digests by
numbers.  `hash` models `job.hash()`, which may opt out with `None`. -/
/-- Job as seen by the hash cache: an identity and the result of `hash()`. -/
structure HJob where
  jid : Nat
  hash : Option Nat
deriving DecidableEq

/-- Model of `JobManager._check_hash`: the returned previous job id (if any)
and the updated `hashes` dict. -/
def checkHash (hashes : List (Nat × Nat)) (j : HJob) : Option Nat × List (Nat × Nat) :=
  match j.hash with
  | none => (none, hashes)
  | some h =>
    match lookupA hashes h with
    | some prev => (some prev, hashes)
    | none => (none, updateA hashes h j.jid)

/-- Model of the hash re-registration step of `JobManager.load_job` (inside
`setstate`): when the loaded job hashes to `h`, the code performs
`self.hashes[h] = job` unconditionally. -/
def loadJobHashes (hashes : List (Nat × Nat)) (j : HJob) : List (Nat × Nat) :=
  match j.hash with
  | none => hashes
  | some h => updateA hashes h j.jid

/-- Model of the hash part of `JobManager.remove_job`: the entry for the
digest of the removed job is deleted only when it still maps to that job. -/
def removeJobHashes (hashes : List (Nat × Nat)) (j : HJob) : List (Nat × Nat) :=
  match j.hash with
  | none => hashes
  | some h =>
    match lookupA hashes h with
    | some v => if v = j.jid then eraseA hashes h else hashes
    | none => hashes

/-! ### Retrying process invocation (private.py, saferun)

The behaviour of attempt number `i` of `subprocess.run` is supplied by an
oracle: it either returns a value, raises the transient `BlockingIOError`,
or raises some other exception. -/
/-- Outcome of one underlying `subprocess.run` invocation. -/
inductive RunOutcome where
  | ok (v : Nat)
  | blocking (e : Nat)
  | raised (e : Nat)
deriving DecidableEq

/-- Observable result of `saferun`: a returned value, a re-raised
`BlockingIOError`, or a propagated other exception. -/
inductive SafeResult where
  | ret (v : Nat)
  | blockingErr (e : Nat)
  | otherErr (e : Nat)
deriving DecidableEq

/-- Loop of `saferun`: `attempt` is the current attempt counter, `remaining`
the number of loop iterations still allowed (`repeat + 1 - attempt`), `last`
the last transient error seen.  Returns the result together with the number
of attempts actually made. -/
def saferunGo (oracle : Nat → RunOutcome) : Nat → Nat → Nat → SafeResult × Nat
  | _, 0, last => (SafeResult.blockingErr last, 0)
  | attempt, remaining + 1, _ =>
    match oracle attempt with
    | RunOutcome.ok v => (SafeResult.ret v, 1)
    | RunOutcome.raised e => (SafeResult.otherErr e, 1)
    | RunOutcome.blocking e =>
      let r := saferunGo oracle (attempt + 1) remaining e
      (r.1, r.2 + 1)

/-- Model of `saferun` with retry limit `rep` (`config.saferun.repeat`): the
while loop runs while `attempt <= rep`, so at most `rep + 1` attempts. -/
def saferun (oracle : Nat → RunOutcome) (rep : Nat) : SafeResult × Nat :=
  saferunGo oracle 0 (rep + 1) 0

/-! ### Filesystem and folder registration (jobmanager.py, JobManager._register)

The filesystem is a finite map from directory paths to their contents;
content value 0 encodes a freshly created empty directory, so `rmtree`
followed by `mkdir` visibly discards the previous contents. -/
/-- Filesystem: association list from paths to directory contents. -/
structure FS where
  entries : List (String × Nat)
deriving DecidableEq

/-- Model of `os.path.exists`. -/
def FS.existsPath (fs : FS) (p : String) : Bool := (lookupA fs.entries p).isSome

/-- Model of `shutil.rmtree`. -/
def FS.rmtree (fs : FS) (p : String) : FS := ⟨eraseA fs.entries p⟩

/-- Model of `os.rename` on a directory: its contents move to the new path. -/
def FS.renameDir (fs : FS) (old new : String) : FS :=
  match lookupA fs.entries old with
  | some c => ⟨updateA (eraseA fs.entries old) new c⟩
  | none => fs

/-- Model of `os.mkdir`: a fresh empty directory appears at `p`. -/
def FS.mkdir (fs : FS) (p : String) : FS := ⟨updateA fs.entries p 0⟩

/-- Name `path + ".old" + str(i)` used by the rename policy. -/
def oldName (p : String) (i : Nat) : String := p ++ ".old" ++ pyStr i

/-- Largest length of a path present in the filesystem. -/
def maxKeyLen (fs : FS) : Nat :=
  fs.entries.foldr (fun e acc => max e.1.data.length acc) 0

/-- Fuel-driven model of the loop `while os.path.exists(path + ".old" + str(i)): i += 1`. -/
def findOldIndex (fs : FS) (p : String) : Nat → Nat → Nat
  | i, 0 => i
  | i, fuel + 1 =>
    if fs.existsPath (oldName p i) then findOldIndex fs p (i + 1) fuel else i

/-- Index chosen by the rename policy.  The fuel `10 ^ maxKeyLen fs - 1`
always suffices: the name with `maxKeyLen fs + 1` digits is longer than any
existing path, hence free. -/
def smallestOldIndex (fs : FS) (p : String) : Nat :=
  findOldIndex fs p 1 (10 ^ maxKeyLen fs - 1)

/-- Model of the folder-collision handling of `JobManager._register` (the
`os.path.exists` branch plus the final `os.mkdir`): policy `remove` deletes
the directory, `rename` moves it to the first free `.oldN` name, anything
else raises `PlamsError`; on success a fresh directory is created. -/
def registerFolder (policy : String) (fs : FS) (path : String) : Except Unit Unit × FS :=
  if fs.existsPath path then
    if policy = "remove" then (Except.ok (), (fs.rmtree path).mkdir path)
    else if policy = "rename" then
      (Except.ok (),
        (fs.renameDir path (oldName path (smallestOldIndex fs path))).mkdir path)
    else (Except.error (), fs)
  else (Except.ok (), fs.mkdir path)

/-- Job as seen by `JobManager._register`. -/
structure MJob where
  name : String
  path : Option String
  parentPath : Option String
  jobmanager : Option Nat
  status : String
deriving DecidableEq

/-- Manager state touched by `JobManager._register`. -/
structure Manager where
  mid : Nat
  counterLen : Nat
  folderPolicy : String
  workdir : String
  jobs : List String
  names : List (String × Nat)
deriving DecidableEq

/-- Path computation of `_register`: an already assigned `job.path` is kept,
otherwise the path is the parent path (or the manager workdir) joined with
the (possibly renamed) job name. -/
def jobTargetPath (workdir : String) (j : MJob) : String :=
  match j.path with
  | some p => p
  | none =>
    match j.parentPath with
    | some pp => pp ++ "/" ++ j.name
    | none => workdir ++ "/" ++ j.name

/-- Model of `JobManager._register`: sets the manager back-reference, runs
`_register_name`, computes and assigns the job path, handles folder
collisions, and on success appends the job and marks it registered.  Returns
the outcome together with the mutated manager, job and filesystem. -/
def registerJob (m : Manager) (j : MJob) (fs : FS) :
    Except Unit Unit × Manager × MJob × FS :=
  let j1 : MJob := { j with jobmanager := some m.mid }
  let r := registerName m.counterLen m.names j1.name
  let j2 : MJob := { j1 with name := r.1 }
  let m1 : Manager := { m with names := r.2 }
  let path := jobTargetPath m1.workdir j2
  let j3 : MJob := { j2 with path := some path }
  match registerFolder m1.folderPolicy fs path with
  | (Except.error _, fs1) => (Except.error (), m1, j3, fs1)
  | (Except.ok _, fs1) =>
    (Except.ok (), { m1 with jobs := m1.jobs ++ [j3.name] },
      { j3 with status := "registered" }, fs1)

/-- Target path of the job as `_register` computes it, before any filesystem
action, for stating preconditions. -/
def registeredPath (m : Manager) (j : MJob) : String :=
  jobTargetPath m.workdir
    { j with name := (registerName m.counterLen m.names j.name).1,
             jobmanager := some m.mid }

/-! ### Local runner (jobrunner.py, JobRunner.call)

The effect of `JobRunner.call` is captured as the `subprocess.run` invocation
it performs (command, working directory, stream redirections) together with
the returned exit code.  The code passed to `saferun` is modelled by an
oracle from invocations to exit codes.  The codebase distinguishes three
stream destinations: redirection to a file, inheritance from the parent
process (no redirection argument), and `DEVNULL` (used elsewhere, e.g. in
`GridRunner._autodetect`). -/
/-- Destination of a standard stream of the child process. -/
inductive StreamDest where
  | file (p : String)
  | inheritParent
  | devnull
deriving DecidableEq

/-- Invocation of `subprocess.run` as performed by `JobRunner.call`. -/
structure Invocation where
  command : List String
  cwd : String
  stdoutDest : StreamDest
  stderrDest : StreamDest
deriving DecidableEq

/-- Model of `JobRunner.call(runscript, workdir, out, err)`: builds the
command (`./runscript` on posix, `sh runscript` otherwise), always redirects
stderr to the `err` file inside `workdir`, redirects stdout to the `out`
file only when `out` is not `None` (passing no stdout argument otherwise),
runs the child synchronously in `workdir` and returns its exit code. -/
def localCall (run : Invocation → Nat) (posix : Bool) (runscript workdir : String)
    (out : Option String) (err : String) : Invocation × Nat :=
  let command := if posix then ["./" ++ runscript] else ["sh", runscript]
  let inv : Invocation :=
    { command := command
      cwd := workdir
      stdoutDest :=
        match out with
        | some o => StreamDest.file (workdir ++ "/" ++ o)
        | none => StreamDest.inheritParent
      stderrDest := StreamDest.file (workdir ++ "/" ++ err) }
  (inv, run inv)

/-! ### Grid runner (jobrunner.py, GridRunner.call and GridRunner._check_queue)

`GridRunner.call` is modelled by its observable effect: the exit code, the
updated `_active_jobs` dict (job id to event), whether `_check_queue` was
triggered, and which event the caller blocks on.  The poll loop is modelled
sequentially: each iteration consumes one scheduler report (the id set the
status-check command returns). -/
/-- Observable effect of one `GridRunner.call`. -/
structure GridCallOut where
  exitCode : Nat
  active : List (Nat × Nat)
  polled : Bool
  waitedOn : Option Nat
deriving DecidableEq

/-- Model of `GridRunner.call`: `getid` applied to the submit-command output
either yields no job id (failure: exit code 1, nothing registered, no poll)
or an id, which is registered under the fresh event; then `_check_queue` is
triggered, the event is waited on, and 0 is returned unconditionally. -/
def gridCall (getid : String → Option Nat) (subout : String)
    (active : List (Nat × Nat)) (freshEvent : Nat) : GridCallOut :=
  match getid subout with
  | none =>
    { exitCode := 1, active := active, polled := false, waitedOn := none }
  | some jobid =>
    { exitCode := 0, active := updateA active jobid freshEvent,
      polled := true, waitedOn := some freshEvent }

/-- One iteration body of `GridRunner._check_queue`: every tracked id absent
from the reported running set has its event signalled and is removed.
Returns the remaining active map and the signalled events. -/
def queueStep (active : List (Nat × Nat)) (running : List Nat) :
    List (Nat × Nat) × List Nat :=
  (active.filter (fun e => decide (e.1 ∈ running)),
   (active.filter (fun e => decide (e.1 ∉ running))).map (fun e => e.2))

/-- Poll loop of `_check_queue`: consumes scheduler reports one per
iteration, accumulating signalled events, and returns as soon as the active
map is empty after a removal pass. -/
def queueLoop (active : List (Nat × Nat)) :
    List (List Nat) → List (Nat × Nat) × List Nat
  | [] => (active, [])
  | r :: rs =>
    let s := queueStep active r
    if s.1.isEmpty then (s.1, s.2)
    else
      let t := queueLoop s.1 rs
      (t.1, s.2 ++ t.2)

/-- Model of `GridRunner._check_queue` including the `_mainlock` guard:
when the non-blocking acquire fails (`lockFree = false`, another instance of
the loop body is running) the call is a no-op. -/
def checkQueue (lockFree : Bool) (active : List (Nat × Nat))
    (reports : List (List Nat)) : List (Nat × Nat) × List Nat :=
  if lockFree then queueLoop active reports else (active, [])

/-! ### Concrete oracles used by the witnesses -/
/-- Oracle raising the transient error twice, then succeeding. -/
def oracleTwoBlocking : Nat → RunOutcome :=
  fun i => if i < 2 then RunOutcome.blocking 1 else RunOutcome.ok 42

/-- Oracle always raising the transient error. -/
def oracleAllBlocking : Nat → RunOutcome := fun _ => RunOutcome.blocking 7

/-- Oracle raising the transient error once, then a non-transient error. -/
def oracleOtherError : Nat → RunOutcome :=
  fun i => if i < 1 then RunOutcome.blocking 3 else RunOutcome.raised 9

/-- Exit-code oracle used by the local-call witnesses. -/
def runZero : Invocation → Nat := fun _ => 0

/-- Job-id extractor that never finds an id, used by the grid-call witness. -/
def getidNone : String → Option Nat := fun _ => none

/-- Job-id extractor that always yields id 11, used by the grid-call witness. -/
def getidSome : String → Option Nat := fun _ => some 11

/-- Filesystem with one existing job folder, used by the folder-policy witness. -/
def fsW : FS := ⟨[("wd/calc", 3)]⟩

/-- Manager with the error folder policy, used by the registration witness. -/
def mW : Manager := ⟨0, 3, "error", "wd", [], []⟩

/-- Unregistered job named calc, used by the registration witness. -/
def jW : MJob := ⟨"calc", none, none, none, "created"⟩

/-- Filesystem in which the target folder of `jW` already exists. -/
def fsWC10 : FS := ⟨[("wd/calc", 7)]⟩

/-! ### Theorems -/

theorem decDigitsAux_congr : ∀ f g n, n < f → n < g → decDigitsAux f n = decDigitsAux g n := by
  intro f
  induction f using Nat.strong_induction_on with
  | _ f ih =>
    intro g n hf hg
    cases f with
    | zero => omega
    | succ f1 =>
      cases g with
      | zero => omega
      | succ g1 =>
        simp only [decDigitsAux]
        by_cases hn : n < 10
        · simp [hn]
        · have hlt : n / 10 < n := Nat.div_lt_self (by omega) (by omega)
          simp only [if_neg hn]
          rw [ih f1 (by omega) g1 (n / 10) (by omega) (by omega)]

theorem decDigits_eq (n : Nat) :
    decDigits n = if n < 10 then [digitChar n]
      else decDigits (n / 10) ++ [digitChar (n % 10)] := by
  show decDigitsAux (n + 1) n = _
  simp only [decDigitsAux]
  split
  · rfl
  · have hlt : n / 10 < n := Nat.div_lt_self (by omega) (by omega)
    rw [decDigitsAux_congr n (n / 10 + 1) (n / 10) (by omega) (by omega)]
    rfl

theorem decDigits_ne_nil (n : Nat) : decDigits n ≠ [] := by
  rw [decDigits_eq]
  split <;> simp

theorem one_le_length_decDigits (n : Nat) : 1 ≤ (decDigits n).length := by
  have h := decDigits_ne_nil n
  cases hd : decDigits n with
  | nil => exact absurd hd h
  | cons a l => simp

theorem digitChar_inj {a b : Nat} (ha : a < 10) (hb : b < 10)
    (h : digitChar a = digitChar b) : a = b := by
  interval_cases a <;> interval_cases b <;> first | rfl | exact absurd h (by decide)

theorem head?_append_of_ne_nil {l m : List Char} (h : l ≠ []) :
    (l ++ m).head? = l.head? := by
  cases l with
  | nil => exact absurd rfl h
  | cons a t => simp

theorem decDigits_head_ne_zeroChar (n : Nat) (hn : n ≠ 0) :
    (decDigits n).head? ≠ some '0' := by
  induction n using Nat.strong_induction_on with
  | _ n ih =>
    rw [decDigits_eq]
    split
    · simp only [List.head?]
      intro hc
      have h0 : ('0' : Char) = digitChar 0 := by decide
      rw [h0] at hc
      have := digitChar_inj (by omega) (by decide) (Option.some.injEq _ _ ▸ hc)
      omega
    · rw [head?_append_of_ne_nil (decDigits_ne_nil _)]
      exact ih (n / 10) (Nat.div_lt_self (by omega) (by omega)) (by omega)

theorem decDigits_inj : ∀ m n, decDigits m = decDigits n → m = n := by
  intro m
  induction m using Nat.strong_induction_on with
  | _ m ih =>
    intro n h
    rw [decDigits_eq m, decDigits_eq n] at h
    by_cases hm : m < 10 <;> by_cases hn : n < 10
    · rw [if_pos hm, if_pos hn] at h
      exact digitChar_inj hm hn (by injection h)
    · rw [if_pos hm, if_neg hn] at h
      have hlen := congrArg List.length h
      simp only [List.length_cons, List.length_nil, List.length_append] at hlen
      have := one_le_length_decDigits (n / 10)
      omega
    · rw [if_neg hm, if_pos hn] at h
      have hlen := congrArg List.length h
      simp only [List.length_cons, List.length_nil, List.length_append] at hlen
      have := one_le_length_decDigits (m / 10)
      omega
    · rw [if_neg hm, if_neg hn] at h
      have hrev := congrArg List.reverse h
      simp only [List.reverse_append, List.reverse_cons, List.reverse_nil,
        List.nil_append, List.cons_append, List.cons.injEq] at hrev
      obtain ⟨hdig, hpre⟩ := hrev
      have hq : m / 10 = n / 10 :=
        ih (m / 10) (Nat.div_lt_self (by omega) (by omega)) (n / 10)
          (List.reverse_injective hpre)
      have hr : m % 10 = n % 10 :=
        digitChar_inj (Nat.mod_lt _ (by omega)) (Nat.mod_lt _ (by omega)) hdig
      omega

theorem dropWhile_replicate_zero_append (k : Nat) (l : List Char) :
    List.dropWhile (· == '0') (List.replicate k '0' ++ l) =
      List.dropWhile (· == '0') l := by
  induction k with
  | zero => simp
  | succ k ihk => simp [List.replicate_succ, List.dropWhile_cons, ihk]

theorem dropWhile_decDigits (n : Nat) (hn : n ≠ 0) :
    List.dropWhile (· == '0') (decDigits n) = decDigits n := by
  have hh := decDigits_head_ne_zeroChar n hn
  cases hd : decDigits n with
  | nil => rfl
  | cons a t =>
    rw [hd] at hh
    simp only [List.head?] at hh
    have ha : (a == '0') = false := by
      cases h0 : a == '0'
      · rfl
      · exact absurd (congrArg some (eq_of_beq h0)) hh
    simp [List.dropWhile_cons, ha]

theorem unzfill_zfill_decDigits (w n : Nat) :
    unzfill (zfillChars w (decDigits n)) = decDigits n := by
  unfold unzfill zfillChars
  rw [dropWhile_replicate_zero_append]
  by_cases hn : n = 0
  · subst hn
    have h0 : decDigits 0 = ['0'] := by decide
    rw [h0]
    simp [List.dropWhile]
  · rw [dropWhile_decDigits n hn]
    cases hd : decDigits n with
    | nil => exact absurd hd (decDigits_ne_nil n)
    | cons a t => simp

theorem zfill_decDigits_inj {w m n : Nat}
    (h : zfillChars w (decDigits m) = zfillChars w (decDigits n)) : m = n := by
  have := congrArg unzfill h
  rw [unzfill_zfill_decDigits, unzfill_zfill_decDigits] at this
  exact decDigits_inj m n this

theorem one_le_length_zfill_pyStr (w n : Nat) : 1 ≤ (zfill w (pyStr n)).data.length := by
  show 1 ≤ (zfillChars w (decDigits n)).length
  unfold zfillChars
  have := one_le_length_decDigits n
  simp
  omega

theorem lookupA_updateA_self {κ ν : Type} [DecidableEq κ]
    (l : List (κ × ν)) (k : κ) (v : ν) : lookupA (updateA l k v) k = some v := by
  induction l with
  | nil => simp [updateA, lookupA]
  | cons e rest ihr =>
    obtain ⟨k0, v0⟩ := e
    by_cases hk : k0 = k
    · simp [updateA, hk, lookupA]
    · simp [updateA, hk, lookupA, ihr]

theorem lookupA_updateA_ne {κ ν : Type} [DecidableEq κ]
    (l : List (κ × ν)) (k q : κ) (v : ν) (hq : q ≠ k) :
    lookupA (updateA l k v) q = lookupA l q := by
  induction l with
  | nil => simp [updateA, lookupA, Ne.symm hq]
  | cons e rest ihr =>
    obtain ⟨k0, v0⟩ := e
    by_cases hk : k0 = k
    · subst hk
      simp [updateA, lookupA, Ne.symm hq]
    · simp [updateA, hk, lookupA, ihr]

theorem lookupA_eraseA_ne {κ ν : Type} [DecidableEq κ]
    (l : List (κ × ν)) (k q : κ) (hq : q ≠ k) :
    lookupA (eraseA l k) q = lookupA l q := by
  induction l with
  | nil => simp [eraseA]
  | cons e rest ihr =>
    obtain ⟨k0, v0⟩ := e
    by_cases hk : k0 = k
    · subst hk
      simp [eraseA, lookupA, Ne.symm hq]
    · simp [eraseA, hk, lookupA, ihr]

theorem lookupA_eq_none_of_not_mem_keys {κ ν : Type} [DecidableEq κ]
    (l : List (κ × ν)) (k : κ) (h : k ∉ l.map Prod.fst) : lookupA l k = none := by
  induction l with
  | nil => rfl
  | cons e rest ihr =>
    obtain ⟨k0, v0⟩ := e
    simp only [List.map_cons, List.mem_cons] at h
    push_neg at h
    simp [lookupA, Ne.symm h.1, ihr h.2]

theorem lookupA_eraseA_self_of_nodup {κ ν : Type} [DecidableEq κ]
    (l : List (κ × ν)) (k : κ) (hnd : (l.map Prod.fst).Nodup) :
    lookupA (eraseA l k) k = none := by
  induction l with
  | nil => rfl
  | cons e rest ihr =>
    obtain ⟨k0, v0⟩ := e
    simp only [List.map_cons, List.nodup_cons] at hnd
    by_cases hk : k0 = k
    · subst hk
      simp [eraseA, lookupA_eq_none_of_not_mem_keys rest k0 hnd.1]
    · simp [eraseA, hk, lookupA, ihr hnd.2]

theorem mem_updateA {κ ν : Type} [DecidableEq κ]
    (l : List (κ × ν)) (k : κ) (v : ν) (e : κ × ν) (he : e ∈ updateA l k v) :
    e = (k, v) ∨ e ∈ l := by
  induction l with
  | nil =>
    simp [updateA] at he
    exact Or.inl he
  | cons f rest ihr =>
    obtain ⟨k0, v0⟩ := f
    by_cases hk : k0 = k
    · simp only [updateA, if_pos hk, List.mem_cons] at he
      rcases he with h | h
      · exact Or.inl h
      · exact Or.inr (List.mem_cons_of_mem _ h)
    · simp only [updateA, if_neg hk, List.mem_cons] at he
      rcases he with h | h
      · exact Or.inr (h ▸ List.mem_cons_self _ _)
      · rcases ihr h with h2 | h2
        · exact Or.inl h2
        · exact Or.inr (List.mem_cons_of_mem _ h2)

theorem lookupA_mem {κ ν : Type} [DecidableEq κ]
    (l : List (κ × ν)) (k : κ) (v : ν) (h : lookupA l k = some v) : (k, v) ∈ l := by
  induction l with
  | nil => simp [lookupA] at h
  | cons e rest ihr =>
    obtain ⟨k0, v0⟩ := e
    by_cases hk : k0 = k
    · subst hk
      simp only [lookupA, eq_self_iff_true, if_true, Option.some.injEq] at h
      subst h
      exact List.mem_cons_self _ _
    · simp only [lookupA, if_neg hk] at h
      exact List.mem_cons_of_mem _ (ihr h)

theorem data_append (s t : String) : (s ++ t).data = s.data ++ t.data := by
  cases s
  cases t
  rfl

theorem one_le_length_zfillChars_dec (w n : Nat) :
    1 ≤ (zfillChars w (decDigits n)).length := by
  unfold zfillChars
  have := one_le_length_decDigits n
  simp
  omega

theorem finalOf_data (clen : Nat) (base : String) {c : Nat} (hc : c ≠ 0) :
    (finalOf clen base c).data =
      base.data ++ '.' :: zfillChars clen (decDigits (c + 1)) := by
  simp only [finalOf, if_neg hc, data_append]
  show (base.data ++ ['.']) ++ zfillChars clen (decDigits (c + 1)) = _
  simp

theorem finalOf_inj_ne (clen : Nat) (base : String) {c d : Nat} (h : c ≠ d) :
    finalOf clen base c ≠ finalOf clen base d := by
  intro he
  have hd := congrArg String.data he
  by_cases h0 : c = 0 <;> by_cases h1 : d = 0
  · exact h (h0.trans h1.symm)
  · rw [show finalOf clen base c = base from if_pos h0, finalOf_data clen base h1] at hd
    have hlen := congrArg List.length hd
    have := one_le_length_zfillChars_dec clen (d + 1)
    simp only [List.length_append, List.length_cons] at hlen
    omega
  · rw [show finalOf clen base d = base from if_pos h1, finalOf_data clen base h0] at hd
    have hlen := congrArg List.length hd
    have := one_le_length_zfillChars_dec clen (c + 1)
    simp only [List.length_append, List.length_cons] at hlen
    omega
  · rw [finalOf_data clen base h0, finalOf_data clen base h1] at hd
    have h2 := List.append_cancel_left hd
    simp only [List.cons.injEq, true_and] at h2
    have h3 : c + 1 = d + 1 := zfill_decDigits_inj h2
    omega

theorem registerName_eq (clen : Nat) (names : List (String × Nat)) (base : String)
    (hinv : NamesInv names) :
    registerName clen names base =
      (finalOf clen base (cnt names base), updateA names base (cnt names base + 1)) := by
  unfold registerName cnt
  cases hl : lookupA names base with
  | none => simp [finalOf]
  | some n =>
    have h1 : 1 ≤ n := hinv _ (lookupA_mem _ _ _ hl)
    have hn0 : n ≠ 0 := by omega
    simp [finalOf, hn0]

theorem NamesInv_update (names : List (String × Nat)) (b : String) (c : Nat)
    (hc : 1 ≤ c) (hinv : NamesInv names) : NamesInv (updateA names b c) := by
  intro e he
  rcases mem_updateA _ _ _ _ he with h | h
  · subst h
    exact hc
  · exact hinv e h

theorem cnt_update_self (names : List (String × Nat)) (b : String) (c : Nat) :
    cnt (updateA names b c) b = c := by
  simp [cnt, lookupA_updateA_self]

theorem cnt_update_ne (names : List (String × Nat)) (b s : String) (c : Nat)
    (h : s ≠ b) : cnt (updateA names b c) s = cnt names s := by
  simp [cnt, lookupA_updateA_ne _ _ _ _ h]

theorem regTrace_final_mem (clen : Nat) :
    ∀ (bs : List String) (names : List (String × Nat)), NamesInv names →
      ∀ b f, (b, f) ∈ regTrace clen names bs →
        ∃ c, cnt names b ≤ c ∧ f = finalOf clen b c := by
  intro bs
  induction bs with
  | nil =>
    intro names _ b f h
    simp [regTrace] at h
  | cons b0 bs ih =>
    intro names hinv b f h
    rw [regTrace, registerName_eq clen names b0 hinv] at h
    simp only [List.mem_cons] at h
    rcases h with h | h
    · obtain ⟨hb, hf⟩ := Prod.mk.injEq .. ▸ h
      subst hb
      exact ⟨cnt names b, le_refl _, hf⟩
    · have hinv2 : NamesInv (updateA names b0 (cnt names b0 + 1)) :=
        NamesInv_update names b0 _ (by omega) hinv
      obtain ⟨c, hc, hf⟩ := ih _ hinv2 b f h
      by_cases hbb : b = b0
      · subst hbb
        rw [cnt_update_self] at hc
        exact ⟨c, by omega, hf⟩
      · rw [cnt_update_ne _ _ _ _ hbb] at hc
        exact ⟨c, hc, hf⟩

theorem regTrace_pairwise (clen : Nat) :
    ∀ (bs : List String) (names : List (String × Nat)), NamesInv names →
      List.Pairwise (fun p q => p.1 = q.1 → p.2 ≠ q.2) (regTrace clen names bs) := by
  intro bs
  induction bs with
  | nil =>
    intro names _
    simp [regTrace]
  | cons b0 bs ih =>
    intro names hinv
    rw [regTrace, registerName_eq clen names b0 hinv]
    have hinv2 : NamesInv (updateA names b0 (cnt names b0 + 1)) :=
      NamesInv_update names b0 _ (by omega) hinv
    refine List.Pairwise.cons ?_ (ih _ hinv2)
    intro q hq hbq
    have hb : b0 = q.1 := hbq
    obtain ⟨c, hc, hf⟩ := regTrace_final_mem clen bs _ hinv2 q.1 q.2
      (by simpa using hq)
    rw [← hb] at hc hf
    rw [cnt_update_self] at hc
    show finalOf clen b0 (cnt names b0) ≠ q.2
    rw [hf]
    exact finalOf_inj_ne clen b0 (by omega)

theorem saferunGo_ok (oracle : Nat → RunOutcome) :
    ∀ (k attempt remaining last : Nat) (v : Nat), k < remaining →
      (∀ i, i < k → ∃ e, oracle (attempt + i) = RunOutcome.blocking e) →
      oracle (attempt + k) = RunOutcome.ok v →
      saferunGo oracle attempt remaining last = (SafeResult.ret v, k + 1) := by
  intro k
  induction k with
  | zero =>
    intro attempt remaining last v hk _ hok
    match remaining with
    | r + 1 =>
      simp only [saferunGo]
      rw [show attempt + 0 = attempt from rfl] at hok
      rw [hok]
  | succ k ihk =>
    intro attempt remaining last v hk hblock hok
    match remaining with
    | r + 1 =>
      obtain ⟨e, he⟩ := hblock 0 (by omega)
      rw [show attempt + 0 = attempt from rfl] at he
      simp only [saferunGo, he]
      rw [ihk (attempt + 1) r e v (by omega)
        (fun i hi => by
          obtain ⟨x, hx⟩ := hblock (i + 1) (by omega)
          exact ⟨x, by rw [show attempt + 1 + i = attempt + (i + 1) by omega]; exact hx⟩)
        (by rw [show attempt + 1 + k = attempt + (k + 1) by omega]; exact hok)]

theorem saferunGo_raised (oracle : Nat → RunOutcome) :
    ∀ (k attempt remaining last : Nat) (e : Nat), k < remaining →
      (∀ i, i < k → ∃ x, oracle (attempt + i) = RunOutcome.blocking x) →
      oracle (attempt + k) = RunOutcome.raised e →
      saferunGo oracle attempt remaining last = (SafeResult.otherErr e, k + 1) := by
  intro k
  induction k with
  | zero =>
    intro attempt remaining last e hk _ hra
    match remaining with
    | r + 1 =>
      simp only [saferunGo]
      rw [show attempt + 0 = attempt from rfl] at hra
      rw [hra]
  | succ k ihk =>
    intro attempt remaining last e hk hblock hra
    match remaining with
    | r + 1 =>
      obtain ⟨x, hx⟩ := hblock 0 (by omega)
      rw [show attempt + 0 = attempt from rfl] at hx
      simp only [saferunGo, hx]
      rw [ihk (attempt + 1) r x e (by omega)
        (fun i hi => by
          obtain ⟨y, hy⟩ := hblock (i + 1) (by omega)
          exact ⟨y, by rw [show attempt + 1 + i = attempt + (i + 1) by omega]; exact hy⟩)
        (by rw [show attempt + 1 + k = attempt + (k + 1) by omega]; exact hra)]

theorem saferunGo_all_blocking (oracle : Nat → RunOutcome) (errs : Nat → Nat) :
    ∀ (remaining attempt last : Nat),
      (∀ i, i < remaining → oracle (attempt + i) = RunOutcome.blocking (errs (attempt + i))) →
      saferunGo oracle attempt remaining last =
        (SafeResult.blockingErr
          (if remaining = 0 then last else errs (attempt + remaining - 1)), remaining) := by
  intro remaining
  induction remaining with
  | zero =>
    intro attempt last _
    simp [saferunGo]
  | succ r ihr =>
    intro attempt last hblock
    have h0 := hblock 0 (by omega)
    rw [show attempt + 0 = attempt from rfl] at h0
    simp only [saferunGo, h0]
    rw [ihr (attempt + 1) (errs attempt)
      (fun i hi => by
        rw [show attempt + 1 + i = attempt + (i + 1) by omega]
        exact hblock (i + 1) (by omega))]
    by_cases hr : r = 0
    · subst hr
      simp
    · rw [if_neg hr, if_neg (by omega : ¬ r + 1 = 0)]
      rw [show attempt + 1 + r - 1 = attempt + (r + 1) - 1 by omega]

theorem length_le_foldr_max (l : List (String × Nat)) (q : String) (v : Nat)
    (h : lookupA l q = some v) :
    q.data.length ≤ l.foldr (fun e acc => max e.1.data.length acc) 0 := by
  induction l with
  | nil => simp [lookupA] at h
  | cons e rest ihr =>
    obtain ⟨k0, v0⟩ := e
    by_cases hk : k0 = q
    · subst hk
      simp only [List.foldr]
      omega
    · simp only [lookupA, if_neg hk] at h
      have := ihr h
      simp only [List.foldr]
      omega

theorem decDigits_pow10_length (k : Nat) : (decDigits (10 ^ k)).length = k + 1 := by
  induction k with
  | zero =>
    rw [pow_zero, decDigits_eq]
    norm_num
  | succ k ihk =>
    have hp : 1 ≤ 10 ^ k := Nat.one_le_pow k 10 (by omega)
    have h10 : 10 ^ (k + 1) = 10 ^ k * 10 := pow_succ 10 k
    rw [decDigits_eq, if_neg (by omega)]
    have hdiv : 10 ^ (k + 1) / 10 = 10 ^ k := by
      rw [h10, Nat.mul_div_cancel _ (by omega)]
    rw [hdiv]
    simp [ihk]

theorem oldName_data (p : String) (i : Nat) :
    (oldName p i).data = p.data ++ ('.' :: 'o' :: 'l' :: 'd' :: decDigits i) := by
  show ((p ++ ".old") ++ pyStr i).data = _
  rw [data_append, data_append]
  simp [pyStr]

theorem existsPath_oldName_pow_false (fs : FS) (p : String) :
    fs.existsPath (oldName p (10 ^ maxKeyLen fs)) = false := by
  unfold FS.existsPath
  cases hl : lookupA fs.entries (oldName p (10 ^ maxKeyLen fs)) with
  | none => rfl
  | some v =>
    have hle : (oldName p (10 ^ maxKeyLen fs)).data.length ≤ maxKeyLen fs :=
      length_le_foldr_max fs.entries _ v hl
    rw [oldName_data] at hle
    simp only [List.length_append, List.length_cons, decDigits_pow10_length] at hle
    omega

theorem findOldIndex_spec (fs : FS) (p : String) :
    ∀ (fuel i : Nat), fs.existsPath (oldName p (i + fuel)) = false →
      fs.existsPath (oldName p (findOldIndex fs p i fuel)) = false ∧
      i ≤ findOldIndex fs p i fuel ∧
      ∀ k, i ≤ k → k < findOldIndex fs p i fuel → fs.existsPath (oldName p k) = true := by
  intro fuel
  induction fuel with
  | zero =>
    intro i hfree
    rw [show i + 0 = i from rfl] at hfree
    refine ⟨hfree, le_refl _, ?_⟩
    intro k hk1 hk2
    simp only [findOldIndex] at hk2
    omega
  | succ fuel ih =>
    intro i hfree
    by_cases he : fs.existsPath (oldName p i)
    · have hrec := ih (i + 1)
        (by rw [show i + 1 + fuel = i + (fuel + 1) by omega]; exact hfree)
      simp only [findOldIndex, if_pos he]
      refine ⟨hrec.1, by omega, ?_⟩
      intro k hk1 hk2
      by_cases hki : k = i
      · subst hki
        exact he
      · exact hrec.2.2 k (by omega) hk2
    · simp only [findOldIndex, if_neg he]
      refine ⟨by simpa using he, le_refl _, ?_⟩
      intro k hk1 hk2
      omega

theorem smallestOldIndex_spec (fs : FS) (p : String) :
    fs.existsPath (oldName p (smallestOldIndex fs p)) = false ∧
    1 ≤ smallestOldIndex fs p ∧
    ∀ k, 1 ≤ k → k < smallestOldIndex fs p → fs.existsPath (oldName p k) = true := by
  have hone : 1 ≤ 10 ^ maxKeyLen fs := Nat.one_le_pow _ 10 (by omega)
  have hfree : fs.existsPath (oldName p (1 + (10 ^ maxKeyLen fs - 1))) = false := by
    rw [show 1 + (10 ^ maxKeyLen fs - 1) = 10 ^ maxKeyLen fs by omega]
    exact existsPath_oldName_pow_false fs p
  exact findOldIndex_spec fs p (10 ^ maxKeyLen fs - 1) 1 hfree

/-! ### Claim theorems -/
/-- C1: for every job whose `hash()` is a digest `h`, `_check_hash` returns
the stored job when `h` is already a key of `hashes` (leaving `hashes`
unchanged) and otherwise inserts `hashes[h] = job` and returns `None`; for a
job whose `hash()` is `None` it returns `None` and leaves `hashes`
unchanged. -/
theorem C1_check_hash_spec (hashes : List (Nat × Nat)) (j : HJob) :
    (j.hash = none → checkHash hashes j = (none, hashes)) ∧
    (∀ h, j.hash = some h →
      (∀ prev, lookupA hashes h = some prev →
        checkHash hashes j = (some prev, hashes)) ∧
      (lookupA hashes h = none →
        checkHash hashes j = (none, updateA hashes h j.jid) ∧
        lookupA (checkHash hashes j).2 h = some j.jid)) := by
  constructor
  · intro hn
    simp [checkHash, hn]
  · intro h hh
    constructor
    · intro prev hp
      simp [checkHash, hh, hp]
    · intro hnone
      constructor
      · simp [checkHash, hh, hnone]
      · simp [checkHash, hh, hnone, lookupA_updateA_self]

/-- C1 witness: a hit returns the stored job id, a miss inserts, a job
without digest is skipped. -/
theorem C1_check_hash_witness :
    checkHash [(5, 1)] ⟨2, some 5⟩ = (some 1, [(5, 1)]) ∧
    checkHash [] ⟨1, some 5⟩ = (none, [(5, 1)]) ∧
    checkHash [(5, 1)] ⟨3, none⟩ = (none, [(5, 1)]) :=
  ⟨((C1_check_hash_spec [(5, 1)] ⟨2, some 5⟩).2 5 rfl).1 1 (by decide),
   (((C1_check_hash_spec [] ⟨1, some 5⟩).2 5 rfl).2 (by decide)).1,
   (C1_check_hash_spec [(5, 1)] ⟨3, none⟩).1 rfl⟩

/-- C2 counterexample: the claim that no operation other than `remove_job`
rebinds `hashes[h]` is false: after `_check_hash` binds digest 5 to job 1,
`load_job` of a snapshot whose job (id 2) hashes to 5 rebinds `hashes[5]`
to job 2 without any removal. -/
theorem C2_hash_rebind_cex :
    lookupA ((checkHash [] ⟨1, some 5⟩).2) 5 = some 1 ∧
    lookupA (loadJobHashes ((checkHash [] ⟨1, some 5⟩).2) ⟨2, some 5⟩) 5 = some 2 ∧
    (2 : Nat) ≠ 1 := by
  decide

/-- C2 (amended): `_check_hash` never rebinds an existing entry of `hashes`;
`load_job`, however, unconditionally rebinds the digest of the loaded job to
that job; `remove_job` leaves every entry not bound to the removed job
intact, and deletes the entry of the removed job when it is still bound to
it. -/
theorem C2_hash_rebind_amended (hashes : List (Nat × Nat)) (j : HJob) :
    (∀ h v, lookupA hashes h = some v → lookupA (checkHash hashes j).2 h = some v) ∧
    (∀ h, j.hash = some h → lookupA (loadJobHashes hashes j) h = some j.jid) ∧
    (∀ h v, lookupA hashes h = some v → v ≠ j.jid →
      lookupA (removeJobHashes hashes j) h = some v) ∧
    ((hashes.map Prod.fst).Nodup → ∀ h, j.hash = some h →
      lookupA hashes h = some j.jid → lookupA (removeJobHashes hashes j) h = none) := by
  refine ⟨?_, ?_, ?_, ?_⟩
  · intro h v hv
    cases hj : j.hash with
    | none => simpa [checkHash, hj] using hv
    | some h0 =>
      cases hl : lookupA hashes h0 with
      | some prev => simpa [checkHash, hj, hl] using hv
      | none =>
        simp only [checkHash, hj, hl]
        by_cases hh : h = h0
        · subst hh
          rw [hl] at hv
          exact absurd hv (by simp)
        · rw [lookupA_updateA_ne _ _ _ _ hh]
          exact hv
  · intro h hj
    simp [loadJobHashes, hj, lookupA_updateA_self]
  · intro h v hv hne
    cases hj : j.hash with
    | none => simpa [removeJobHashes, hj] using hv
    | some h0 =>
      cases hl : lookupA hashes h0 with
      | none => simpa [removeJobHashes, hj, hl] using hv
      | some w =>
        by_cases hw : w = j.jid
        · simp only [removeJobHashes, hj, hl, if_pos hw]
          have hh : h ≠ h0 := by
            intro he
            subst he
            rw [hl] at hv
            exact hne (by injection hv with h2; omega)
          rw [lookupA_eraseA_ne _ _ _ hh]
          exact hv
        · simpa [removeJobHashes, hj, hl, hw] using hv
  · intro hnd h hj hv
    simp only [removeJobHashes, hj, hv, if_pos rfl]
    exact lookupA_eraseA_self_of_nodup hashes h hnd

/-- C2 witness: concrete instances of the four amended conjuncts. -/
theorem C2_hash_rebind_witness :
    lookupA (checkHash [(5, 1)] ⟨2, some 6⟩).2 5 = some 1 ∧
    lookupA (loadJobHashes [(5, 1)] ⟨2, some 5⟩) 5 = some 2 ∧
    lookupA (removeJobHashes [(5, 1)] ⟨2, some 5⟩) 5 = some 1 ∧
    lookupA (removeJobHashes [(5, 1)] ⟨1, some 5⟩) 5 = none :=
  ⟨(C2_hash_rebind_amended [(5, 1)] ⟨2, some 6⟩).1 5 1 (by decide),
   (C2_hash_rebind_amended [(5, 1)] ⟨2, some 5⟩).2.1 5 rfl,
   (C2_hash_rebind_amended [(5, 1)] ⟨2, some 5⟩).2.2.1 5 1 (by decide) (by decide),
   (C2_hash_rebind_amended [(5, 1)] ⟨1, some 5⟩).2.2.2 (by decide) 5 rfl (by decide)⟩

/-- C3 counterexample: with counter length 3, three registrations of base
name calc do not yield the names calc, calc.001, calc.002 claimed: the
counter is incremented before formatting, so the first collision already
uses 002. -/
theorem C3_naming_cex :
    (regTrace 3 [] ["calc", "calc", "calc"]).map Prod.snd ≠
      ["calc", "calc.001", "calc.002"] := by
  decide

/-- C3 (amended): registering three jobs named calc on a manager with
counter length 3 yields the final names calc, calc.002, calc.003, in
registration order. -/
theorem C3_naming_amended :
    (regTrace 3 [] ["calc", "calc", "calc"]).map Prod.snd =
      ["calc", "calc.002", "calc.003"] := by
  decide

/-- C4 counterexample: final names are not unique among all jobs ever
registered: after calc and calc (renamed to calc.002), a job whose base name
is calc.002 keeps that name, duplicating the generated one, because
generated names are never recorded in `names`. -/
theorem C4_unique_names_cex :
    ¬ ((regTrace 3 [] ["calc", "calc", "calc.002"]).map Prod.snd).Nodup := by
  decide

/-- C4 (amended): in every registration sequence, two jobs with the same
base name always receive distinct final names; uniqueness across different
base names can fail when a base name equals a previously generated name. -/
theorem C4_unique_names_amended (clen : Nat) (bs : List String) :
    List.Pairwise (fun p q => p.1 = q.1 → p.2 ≠ q.2) (regTrace clen [] bs) :=
  regTrace_pairwise clen bs [] (fun e he => absurd he (List.not_mem_nil e))

/-- C4 witness: two registrations of the same base name, pairwise distinct
final names. -/
theorem C4_unique_names_witness :
    List.Pairwise (fun p q : String × String => p.1 = q.1 → p.2 ≠ q.2)
      (regTrace 3 [] ["calc", "calc"]) :=
  C4_unique_names_amended 3 ["calc", "calc"]

/-- C5: when the target path already exists, policy remove deletes the
directory and creates a fresh one (other paths untouched); policy rename
moves it to `path.oldN` for the smallest `N` at least 1 whose name is free,
preserving its contents, and creates a fresh directory; any other policy
raises and leaves the filesystem untouched. -/
theorem C5_folder_policy_spec (fs : FS) (path policy : String)
    (hex : fs.existsPath path = true) :
    ((registerFolder "remove" fs path).1 = Except.ok () ∧
      lookupA (registerFolder "remove" fs path).2.entries path = some 0 ∧
      (∀ q, q ≠ path →
        lookupA (registerFolder "remove" fs path).2.entries q = lookupA fs.entries q)) ∧
    ((registerFolder "rename" fs path).1 = Except.ok () ∧
      lookupA (registerFolder "rename" fs path).2.entries
          (oldName path (smallestOldIndex fs path)) = lookupA fs.entries path ∧
      lookupA (registerFolder "rename" fs path).2.entries path = some 0 ∧
      fs.existsPath (oldName path (smallestOldIndex fs path)) = false ∧
      1 ≤ smallestOldIndex fs path ∧
      (∀ k, 1 ≤ k → k < smallestOldIndex fs path →
        fs.existsPath (oldName path k) = true)) ∧
    (policy ≠ "remove" → policy ≠ "rename" →
      registerFolder policy fs path = (Except.error (), fs)) := by
  cases hc : lookupA fs.entries path with
  | none =>
    rw [FS.existsPath, hc] at hex
    exact absurd hex (by simp)
  | some c =>
    obtain ⟨hfree, hone, hmin⟩ := smallestOldIndex_spec fs path
    have hnone : lookupA fs.entries (oldName path (smallestOldIndex fs path)) = none := by
      cases ho : lookupA fs.entries (oldName path (smallestOldIndex fs path)) with
      | none => rfl
      | some v =>
        rw [FS.existsPath, ho] at hfree
        exact absurd hfree (by simp)
    have hne : oldName path (smallestOldIndex fs path) ≠ path := by
      intro he
      rw [he, hc] at hnone
      exact absurd hnone (by simp)
    refine ⟨⟨?_, ?_, ?_⟩, ⟨?_, ?_, ?_, hfree, hone, hmin⟩, ?_⟩
    · simp [registerFolder, hex]
    · simp [registerFolder, hex, FS.rmtree, FS.mkdir, lookupA_updateA_self]
    · intro q hq
      simp only [registerFolder, if_pos hex, eq_self_iff_true, if_true, FS.mkdir, FS.rmtree]
      rw [lookupA_updateA_ne _ _ _ _ hq, lookupA_eraseA_ne _ _ _ hq]
    · simp [registerFolder, hex]
    · simp only [registerFolder, if_pos hex, eq_self_iff_true, if_true, FS.mkdir,
        FS.renameDir, hc]
      rw [if_neg (by decide : ¬ ("rename" : String) = "remove")]
      rw [lookupA_updateA_ne _ _ _ _ hne, lookupA_updateA_self]
    · simp only [registerFolder, if_pos hex, eq_self_iff_true, if_true, FS.mkdir,
        FS.renameDir, hc]
      rw [if_neg (by decide : ¬ ("rename" : String) = "remove")]
      rw [lookupA_updateA_self]
    · intro hp1 hp2
      simp [registerFolder, hex, hp1, hp2]

/-- C5 witness: concrete instances of the three policies on a filesystem in
which the target folder exists. -/
theorem C5_folder_policy_witness :
    (registerFolder "remove" fsW "wd/calc").1 = Except.ok () ∧
    lookupA (registerFolder "remove" fsW "wd/calc").2.entries "wd/calc" = some 0 ∧
    lookupA (registerFolder "rename" fsW "wd/calc").2.entries
        (oldName "wd/calc" (smallestOldIndex fsW "wd/calc")) =
      lookupA fsW.entries "wd/calc" ∧
    registerFolder "qqq" fsW "wd/calc" = (Except.error (), fsW) :=
  ⟨(C5_folder_policy_spec fsW "wd/calc" "qqq" (by decide)).1.1,
   (C5_folder_policy_spec fsW "wd/calc" "qqq" (by decide)).1.2.1,
   (C5_folder_policy_spec fsW "wd/calc" "qqq" (by decide)).2.1.2.1,
   (C5_folder_policy_spec fsW "wd/calc" "qqq" (by decide)).2.2 (by decide) (by decide)⟩

/-- C6: `saferun` retries only on the transient `BlockingIOError`: with
retry limit `rep` it returns the first successful result within at most
`rep + 1` attempts; when every attempt raises the transient error it makes
exactly `rep + 1` attempts and re-raises the last transient error; any other
exception propagates immediately after the attempt that raised it. -/
theorem C6_saferun_spec (oracle : Nat → RunOutcome) (rep : Nat) :
    (∀ k v, k ≤ rep → (∀ i, i < k → ∃ e, oracle i = RunOutcome.blocking e) →
      oracle k = RunOutcome.ok v →
      saferun oracle rep = (SafeResult.ret v, k + 1)) ∧
    (∀ errs : Nat → Nat, (∀ i, i ≤ rep → oracle i = RunOutcome.blocking (errs i)) →
      saferun oracle rep = (SafeResult.blockingErr (errs rep), rep + 1)) ∧
    (∀ k e, k ≤ rep → (∀ i, i < k → ∃ x, oracle i = RunOutcome.blocking x) →
      oracle k = RunOutcome.raised e →
      saferun oracle rep = (SafeResult.otherErr e, k + 1)) := by
  refine ⟨?_, ?_, ?_⟩
  · intro k v hk hb hok
    exact saferunGo_ok oracle k 0 (rep + 1) 0 v (by omega)
      (fun i hi => by simpa using hb i hi) (by simpa using hok)
  · intro errs hb
    have h := saferunGo_all_blocking oracle errs (rep + 1) 0 0
      (fun i hi => by rw [Nat.zero_add]; exact hb i (by omega))
    simpa using h
  · intro k e hk hb hra
    exact saferunGo_raised oracle k 0 (rep + 1) 0 e (by omega)
      (fun i hi => by simpa using hb i hi) (by simpa using hra)

/-- C6 witness: two transient errors then success with limit 5 returns the
result on the third attempt; a persistent transient error with limit 3 makes
exactly 4 attempts and re-raises it; a non-transient error on the second
attempt propagates immediately. -/
theorem C6_saferun_witness :
    saferun oracleTwoBlocking 5 = (SafeResult.ret 42, 3) ∧
    saferun oracleAllBlocking 3 = (SafeResult.blockingErr 7, 4) ∧
    saferun oracleOtherError 5 = (SafeResult.otherErr 9, 2) :=
  ⟨(C6_saferun_spec oracleTwoBlocking 5).1 2 42 (by omega)
      (fun i hi => ⟨1, by simp [oracleTwoBlocking, hi]⟩) (by decide),
   (C6_saferun_spec oracleAllBlocking 3).2.1 (fun _ => 7) (fun _ _ => rfl),
   (C6_saferun_spec oracleOtherError 5).2.2 1 9 (by omega)
      (fun i hi => ⟨3, by simp [oracleOtherError, hi]⟩) (by decide)⟩

/-- C7: `GridRunner.call` returns exit code 1 immediately when the job-id
extractor finds no id in the submit output, leaving the active map untouched
and not triggering the poll loop; otherwise it registers the id under the
fresh event, triggers the poll loop, waits on that event and returns exit
code 0 unconditionally. -/
theorem C7_grid_call_spec (getid : String → Option Nat) (subout : String)
    (active : List (Nat × Nat)) (freshEvent : Nat) :
    (getid subout = none →
      gridCall getid subout active freshEvent =
        { exitCode := 1, active := active, polled := false, waitedOn := none }) ∧
    (∀ jobid, getid subout = some jobid →
      (gridCall getid subout active freshEvent).exitCode = 0 ∧
      (gridCall getid subout active freshEvent).active = updateA active jobid freshEvent ∧
      lookupA (gridCall getid subout active freshEvent).active jobid = some freshEvent ∧
      (gridCall getid subout active freshEvent).polled = true ∧
      (gridCall getid subout active freshEvent).waitedOn = some freshEvent) := by
  constructor
  · intro hn
    simp [gridCall, hn]
  · intro jobid hs
    simp [gridCall, hs, lookupA_updateA_self]

/-- C7 witness: a failed extraction returns 1 without touching anything; a
successful one registers the id and returns 0. -/
theorem C7_grid_call_witness :
    gridCall getidNone "out" [] 0 =
      { exitCode := 1, active := [], polled := false, waitedOn := none } ∧
    (gridCall getidSome "out" [] 5).exitCode = 0 ∧
    lookupA (gridCall getidSome "out" [] 5).active 11 = some 5 :=
  ⟨(C7_grid_call_spec getidNone "out" [] 0).1 rfl,
   ((C7_grid_call_spec getidSome "out" [] 5).2 11 rfl).1,
   ((C7_grid_call_spec getidSome "out" [] 5).2 11 rfl).2.2.1⟩

/-- C8: a trigger of `_check_queue` while the lock is held is a no-op; in
one iteration every tracked id absent from the reported running set keeps
none of its entries and has its event signalled, while ids still reported
stay; and the loop returns as soon as the active map is empty after a
removal pass, consuming no further reports. -/
theorem C8_check_queue_spec (active : List (Nat × Nat)) (reports : List (List Nat))
    (r : List Nat) (rs : List (List Nat)) (id ev : Nat) :
    (checkQueue false active reports = (active, [])) ∧
    ((id, ev) ∈ active → id ∈ r → (id, ev) ∈ (queueStep active r).1) ∧
    ((id, ev) ∈ active → id ∉ r →
      ((id, ev) ∉ (queueStep active r).1 ∧ ev ∈ (queueStep active r).2)) ∧
    ((queueStep active r).1 = [] →
      queueLoop active (r :: rs) = ((queueStep active r).1, (queueStep active r).2)) := by
  refine ⟨?_, ?_, ?_, ?_⟩
  · simp [checkQueue]
  · intro hm hr
    simp only [queueStep, List.mem_filter, decide_eq_true_eq]
    exact ⟨hm, hr⟩
  · intro hm hr
    constructor
    · intro hmem
      rw [queueStep] at hmem
      simp only [List.mem_filter, decide_eq_true_eq] at hmem
      exact hr hmem.2
    · rw [queueStep]
      refine List.mem_map.mpr ⟨(id, ev), ?_, rfl⟩
      simp only [List.mem_filter, decide_eq_true_eq]
      exact ⟨hm, hr⟩
  · intro hempty
    simp [queueLoop, hempty]

/-- C8 witness: concrete no-op under a held lock, one removal pass, and
termination on an empty active map. -/
theorem C8_check_queue_witness :
    checkQueue false [(1, 10)] [[2]] = ([(1, 10)], []) ∧
    (1, 10) ∈ (queueStep [(1, 10), (2, 20)] [1]).1 ∧
    ((2, 20) ∉ (queueStep [(1, 10), (2, 20)] [1]).1 ∧
      20 ∈ (queueStep [(1, 10), (2, 20)] [1]).2) ∧
    queueLoop [(1, 10)] ([] :: [[3]]) =
      ((queueStep [(1, 10)] []).1, (queueStep [(1, 10)] []).2) :=
  ⟨(C8_check_queue_spec [(1, 10)] [[2]] [1] [] 1 10).1,
   (C8_check_queue_spec [(1, 10), (2, 20)] [] [1] [] 1 10).2.1 (by decide) (by decide),
   (C8_check_queue_spec [(1, 10), (2, 20)] [] [1] [] 2 20).2.2.1 (by decide) (by decide),
   (C8_check_queue_spec [(1, 10)] [] [] [[3]] 1 10).2.2.2 (by decide)⟩

/-- C9 counterexample: with `out = None` the stdout of the child is not
discarded (no `DEVNULL` redirection, which the claim asserts): the
invocation passes no stdout argument at all, so the stream is inherited from
the parent process. -/
theorem C9_local_call_cex :
    (localCall runZero true "run" "wd" none "err").1.stdoutDest =
      StreamDest.inheritParent ∧
    StreamDest.inheritParent ≠ StreamDest.devnull := by
  decide

/-- C9 (amended): the local `call` runs the runscript as a synchronous child
process with working directory `workdir`, always redirects stderr to the
`err` file inside `workdir`, redirects stdout to the `out` file inside
`workdir` only when `out` is not `None` (leaving stdout inherited from the
parent process otherwise), and returns the exit code of the child. -/
theorem C9_local_call_amended (run : Invocation → Nat) (posix : Bool)
    (runscript workdir : String) (out : Option String) (err : String) :
    (localCall run posix runscript workdir out err).1.cwd = workdir ∧
    (localCall run posix runscript workdir out err).1.stderrDest =
      StreamDest.file (workdir ++ "/" ++ err) ∧
    (∀ o, out = some o →
      (localCall run posix runscript workdir out err).1.stdoutDest =
        StreamDest.file (workdir ++ "/" ++ o)) ∧
    (out = none →
      (localCall run posix runscript workdir out err).1.stdoutDest =
        StreamDest.inheritParent) ∧
    (localCall run posix runscript workdir out err).1.command =
      (if posix then ["./" ++ runscript] else ["sh", runscript]) ∧
    (localCall run posix runscript workdir out err).2 =
      run (localCall run posix runscript workdir out err).1 := by
  refine ⟨rfl, rfl, ?_, ?_, rfl, rfl⟩
  · intro o ho
    simp [localCall, ho]
  · intro ho
    simp [localCall, ho]

/-- C9 witness: the stdout destination in the two cases of `out`. -/
theorem C9_local_call_witness :
    (localCall runZero true "run" "wd" (some "out") "err").1.stdoutDest =
      StreamDest.file ("wd" ++ "/" ++ "out") ∧
    (localCall runZero true "run" "wd" none "err").1.stdoutDest =
      StreamDest.inheritParent :=
  ⟨(C9_local_call_amended runZero true "run" "wd" (some "out") "err").2.2.1 "out" rfl,
   (C9_local_call_amended runZero true "run" "wd" none "err").2.2.2.1 rfl⟩

/-- C10: when the target path exists and the folder policy is neither remove
nor rename, `_register` raises after having already set the manager
back-reference, consumed the name counter (renaming the job accordingly) and
assigned the job path, while the job is not appended to `jobs`, its status
is unchanged and the filesystem is untouched. -/
theorem C10_register_error_partial (m : Manager) (j : MJob) (fs : FS)
    (hex : fs.existsPath (registeredPath m j) = true)
    (h1 : m.folderPolicy ≠ "remove") (h2 : m.folderPolicy ≠ "rename") :
    (registerJob m j fs).1 = Except.error () ∧
    (registerJob m j fs).2.1.names = (registerName m.counterLen m.names j.name).2 ∧
    (registerJob m j fs).2.1.jobs = m.jobs ∧
    (registerJob m j fs).2.2.1.jobmanager = some m.mid ∧
    (registerJob m j fs).2.2.1.name = (registerName m.counterLen m.names j.name).1 ∧
    (registerJob m j fs).2.2.1.path = some (registeredPath m j) ∧
    (registerJob m j fs).2.2.1.status = j.status ∧
    (registerJob m j fs).2.2.2 = fs := by
  have hrf : registerFolder m.folderPolicy fs (registeredPath m j) =
      (Except.error (), fs) := by
    rw [registerFolder, if_pos hex, if_neg h1, if_neg h2]
  simp only [registerJob]
  split
  · rename_i u fs1 heq
    have hS : (Except.error u, fs1) = ((Except.error (), fs) : Except Unit Unit × FS) := by
      rw [← heq]
      exact hrf
    have hfs : fs1 = fs := congrArg Prod.snd hS
    subst hfs
    exact ⟨rfl, rfl, rfl, rfl, rfl, rfl, rfl, rfl⟩
  · rename_i u fs1 heq
    have hS : (Except.ok u, fs1) = ((Except.error (), fs) : Except Unit Unit × FS) := by
      rw [← heq]
      exact hrf
    exact absurd (congrArg Prod.fst hS) (by simp)

/-- C10 witness: registering a job whose folder already exists under the
error policy fails partway, leaving the described partial mutations. -/
theorem C10_register_error_witness :
    (registerJob mW jW fsWC10).1 = Except.error () ∧
    (registerJob mW jW fsWC10).2.1.names = (registerName mW.counterLen mW.names jW.name).2 ∧
    (registerJob mW jW fsWC10).2.1.jobs = mW.jobs ∧
    (registerJob mW jW fsWC10).2.2.1.jobmanager = some mW.mid ∧
    (registerJob mW jW fsWC10).2.2.1.name = (registerName mW.counterLen mW.names jW.name).1 ∧
    (registerJob mW jW fsWC10).2.2.1.path = some (registeredPath mW jW) ∧
    (registerJob mW jW fsWC10).2.2.1.status = jW.status ∧
    (registerJob mW jW fsWC10).2.2.2 = fsWC10 :=
  C10_register_error_partial mW jW fsWC10 (by decide) (by decide) (by decide)

end PLAMS
